import Mathlib

/-!
Verification of the baby-step giant-step (BSGS) discrete-logarithm solver.

The development shallowly embeds the Rust sources:

* `crates/core/src/baby_giant.rs` — the generic `BabyGiantOps` trait with its
  default `run` method (the BSGS engine);
* `crates/core/src/impls/grumpkin.rs` — the Grumpkin elliptic-curve adapter
  `GrumpkinBabyGiant` (baby-step table keyed by the affine x-coordinate,
  giant-step jump `-(m·base)`, result composition `giant*m + baby` in `u64`)
  and the boundary function `grumpkin_bsgs` (0-sentinel convention);
* `crates/core/src/lib.rs` — `modular_exponentiation` over `u128`
  (square-and-multiply, wrapping semantics modelled as `% 2^128`).

The elliptic-curve arithmetic itself lives in the external `ark_grumpkin`
library, which the specification treats as a black box satisfying the group
axioms; accordingly the curve group generated by `base` is modelled as the
cyclic group `ZMod o` (with `base` an element of additive order dividing the
relevant order), and the canonical x-coordinate encoding is modelled as an
arbitrary function `e : ZMod o → K` which, where a claim requires it, is
assumed to identify an element exactly with its negation
(`e a = e b → a = b ∨ a = -b`) — the documented behaviour of the affine
x-coordinate. A separate structural model of affine points is used for the
claims that speak about the x-coordinate key directly.
-/

namespace BabyGiant

/-- Model of `HashMap::insert`: a table is a function `K → Option Nat`
(`u64` values are `Nat`; all `u64` values occurring as table entries are
baby-step counters bounded by `steps_count`, which never wraps). -/
def insertT {K : Type} [DecidableEq K] (t : K → Option Nat) (k : K) (v : Nat) :
    K → Option Nat :=
  fun q => if q = k then some v else t q

/-- The operations the `GrumpkinBabyGiant` implementation of the
`BabyGiantOps` trait delegates to the group: point addition, negation,
scalar multiplication (by a `u64` cast into the scalar field) and the
canonical encoding used as the table key (the affine x-coordinate). -/
structure GroupOps (El K : Type) where
  add : El → El → El
  neg : El → El
  smul : Nat → El → El
  enc : El → K

/-- Model of the solver state `GrumpkinBabyGiant { steps_count, baby_steps }`
from `impls/grumpkin.rs`. -/
structure GrumpkinBabyGiant (K : Type) where
  steps_count : Nat
  baby_steps : K → Option Nat

/-- Model of `GrumpkinBabyGiant::new`: chosen step count, empty table. -/
def GrumpkinBabyGiant.new (K : Type) (steps_count : Nat) : GrumpkinBabyGiant K :=
  ⟨steps_count, fun _ => none⟩

/-- The `while baby_step < self.steps_count` loop of `baby_steps`
(grumpkin.rs lines 39–48), as a fuel recursion: `fuel` is
`steps_count - baby_step`, `j` is the current value of `baby_step`,
`c` the current point. Each iteration increments the counter, inserts
`enc c ↦ j+1` and advances `c` by `base`. The initial table is whatever
the solver already holds — the source never clears it. -/
def babyStepsAux {El K : Type} [DecidableEq K] (ops : GroupOps El K) (base : El) :
    Nat → Nat → El → (K → Option Nat) → (K → Option Nat)
  | 0, _, _, t => t
  | fuel + 1, j, c, t =>
      babyStepsAux ops base fuel (j + 1) (ops.add c base) (insertT t (ops.enc c) (j + 1))

/-- Model of `GrumpkinBabyGiant::baby_steps`: run the insertion loop from
counter `0` and current point `base` over the solver's existing table. -/
def baby_steps {El K : Type} [DecidableEq K] (ops : GroupOps El K)
    (s : GrumpkinBabyGiant K) (base : El) : GrumpkinBabyGiant K :=
  ⟨s.steps_count, babyStepsAux ops base s.steps_count 0 base s.baby_steps⟩

/-- Model of `GrumpkinBabyGiant::in_baby_steps`: the table probe is keyed by
the canonical encoding (the affine x-coordinate) of the queried element. -/
def in_baby_steps {El K : Type} [DecidableEq K] (ops : GroupOps El K)
    (s : GrumpkinBabyGiant K) (target : El) : Option Nat :=
  s.baby_steps (ops.enc target)

/-- Model of `GrumpkinBabyGiant::giant_step_jump`: `-(base * m)`. -/
def giant_step_jump {El K : Type} (ops : GroupOps El K)
    (s : GrumpkinBabyGiant K) (base : El) : El :=
  ops.neg (ops.smul s.steps_count base)

/-- Model of `GrumpkinBabyGiant::process_result`: `giant * step_count + baby`
computed in `u64`, hence reduced modulo `2^64`. -/
def process_result {K : Type} (s : GrumpkinBabyGiant K) (baby giant : Nat) : Nat :=
  (giant * s.steps_count + baby) % 2 ^ 64

/-- The `while giant_step < steps_count` scan loop of `BabyGiantOps::run`
(baby_giant.rs lines 47–61), as a fuel recursion over the giant-step
counter: `fuel` is `steps_count - g`, `g` the current counter, `c` the
current element. A table hit at `c` returns `process_result baby g`;
otherwise `c` advances by the precomputed jump. -/
def giantScanAux {El K : Type} [DecidableEq K] (ops : GroupOps El K)
    (s : GrumpkinBabyGiant K) (jump : El) :
    Nat → Nat → El → Option Nat
  | 0, _, _ => none
  | fuel + 1, g, c =>
      match in_baby_steps ops s c with
      | some baby => some (process_result s baby g)
      | none => giantScanAux ops s jump fuel (g + 1) (ops.add c jump)

/-- Model of `BabyGiantOps::run` (baby_giant.rs lines 35–65) as implemented
by `GrumpkinBabyGiant`: populate the baby-step table (over whatever the
solver already holds), compute the giant-step jump, then scan up to
`steps_count` giant steps starting from `target`. Returns the optional
result together with the solver's final state (the mutated `&mut self`). -/
def run {El K : Type} [DecidableEq K] (ops : GroupOps El K)
    (s : GrumpkinBabyGiant K) (base target : El) :
    Option Nat × GrumpkinBabyGiant K :=
  let s' := baby_steps ops s base
  let jump := giant_step_jump ops s' base
  (giantScanAux ops s' jump s'.steps_count 0 target, s')

/-- Model of `grumpkin_bsgs` (grumpkin.rs lines 69–78): construct a fresh
solver of the given size, run it, and collapse `None` to the `0` sentinel.
The concrete generator `g()` is abstracted as the `base` argument. -/
def grumpkin_bsgs {El K : Type} [DecidableEq K] (ops : GroupOps El K)
    (base target : El) (size : Nat) : Nat :=
  match (run ops (GrumpkinBabyGiant.new K size) base target).1 with
  | some res => res
  | none => 0

/-- Structural model of `ark_grumpkin::Affine`: affine coordinates plus the
point-at-infinity flag, over an abstract field `F`. -/
structure Affine (F : Type) where
  x : F
  y : F
  infinity : Bool

/-- Modelled from the spec (§4.3): negation of an affine curve point flips
the sign of the y-coordinate and keeps the x-coordinate — the property of
the external arithmetic library the specification relies on ("a curve point
and its negation generally share the same x-coordinate, differing only in
sign of y"). -/
def Affine.neg {F : Type} [Neg F] (p : Affine F) : Affine F :=
  ⟨p.x, -p.y, p.infinity⟩

/-- The table lookup of the elliptic-curve adapter keyed by the affine
x-coordinate alone (`self.baby_steps.get(&target.x)`, grumpkin.rs line 65). -/
def affine_in_baby_steps {F : Type} (t : F → Option Nat) (p : Affine F) :
    Option Nat :=
  t p.x

/-- The concrete model instance used for witnesses: the cyclic group
`ZMod o` (the subgroup of the curve generated by `base`, transported along
the black-box group isomorphism), with `enc` a supplied encoding. -/
def zmodOps (o : Nat) {K : Type} (e : ZMod o → K) : GroupOps (ZMod o) K :=
  ⟨fun a b => a + b, fun a => -a, fun n x => n • x, e⟩

/-- A concrete encoding with exactly the conflation behaviour of the affine
x-coordinate: an element and its negation share an encoding, and nothing
else collides (`encMin a = encMin b ↔ a = ±b`). -/
def encMin (o : Nat) (z : ZMod o) : Nat :=
  min z.val (-z).val

/-- The `while exp > 0` loop of `modular_exponentiation` (lib.rs lines
111–117): `u128` multiplication wraps modulo `2^128` (release-profile
semantics) before the reduction by `modulus`. -/
def modExpLoop (base exp result modulus : Nat) : Nat :=
  if exp = 0 then result
  else
    modExpLoop (base * base % 2 ^ 128 % modulus) (exp / 2)
      (if exp % 2 = 1 then result * base % 2 ^ 128 % modulus else result) modulus
termination_by exp
decreasing_by exact Nat.div_lt_self (Nat.pos_of_ne_zero (by assumption)) one_lt_two

/-- Model of `modular_exponentiation` (lib.rs lines 102–120): early return
`0` for modulus `1`, otherwise square-and-multiply over the bits of the
exponent. -/
def modular_exponentiation (base exponent modulus : Nat) : Nat :=
  if modulus = 1 then 0
  else modExpLoop (base % modulus) exponent 1 modulus

/-- Repeated application of the group operation with a fixed second operand:
`iterOp ops step n c` is `c` advanced `n` times by `step`. Both loops of the
algorithm walk the group this way (the baby-step loop with `step = base`,
the giant-step scan with `step = jump`). -/
def iterOp {El K : Type} (ops : GroupOps El K) (step : El) : Nat → El → El
  | 0, c => c
  | n + 1, c => iterOp ops step n (ops.add c step)

/-- Closed form of what the insertion loop leaves at key `k`: the last
(largest-index) insertion whose key is `k`, if any. `fuel`, `j`, `c` track
the loop state exactly as in `babyStepsAux`. -/
def lastHit {El K : Type} [DecidableEq K] (ops : GroupOps El K) (base : El) (k : K) :
    Nat → Nat → El → Option Nat
  | 0, _, _ => none
  | fuel + 1, j, c =>
      match lastHit ops base k fuel (j + 1) (ops.add c base) with
      | some v => some v
      | none => if k = ops.enc c then some (j + 1) else none

/-- The order of the Grumpkin curve group (the prime modulus of the BN254
base field): the additive order of the generator `g()` that the boundary
entry points use as `base`. -/
def grumpkinOrder : Nat :=
  21888242871839275222246405745257275088696311157297823662689037894645226208583

/-! ### Properties of the baby-step insertion loop -/

theorem babyStepsAux_eq_lastHit {El K : Type} [DecidableEq K] (ops : GroupOps El K)
    (base : El) (k : K) :
    ∀ (fuel j : Nat) (c : El) (t : K → Option Nat),
      babyStepsAux ops base fuel j c t k =
        match lastHit ops base k fuel j c with
        | some v => some v
        | none => t k := by
  intro fuel
  induction fuel with
  | zero => intro j c t; rfl
  | succ f ih =>
      intro j c t
      rw [babyStepsAux, ih, lastHit]
      cases h : lastHit ops base k f (j + 1) (ops.add c base) with
      | some v => rfl
      | none =>
          simp only [insertT]
          by_cases hk : k = ops.enc c <;> simp [hk]

theorem lastHit_bounds {El K : Type} [DecidableEq K] (ops : GroupOps El K)
    (base : El) (k : K) :
    ∀ (fuel j : Nat) (c : El) (v : Nat),
      lastHit ops base k fuel j c = some v →
        j < v ∧ v ≤ j + fuel ∧ k = ops.enc (iterOp ops base (v - j - 1) c) := by
  intro fuel
  induction fuel with
  | zero => intro j c v h; exact absurd h (by simp [lastHit])
  | succ f ih =>
      intro j c v h
      rw [lastHit] at h
      cases hrec : lastHit ops base k f (j + 1) (ops.add c base) with
      | some w =>
          rw [hrec] at h
          have hw : w = v := by simpa using h
          rw [hw] at hrec
          obtain ⟨h1, h2, h3⟩ := ih (j + 1) (ops.add c base) v hrec
          refine ⟨by omega, by omega, ?_⟩
          have harith : v - j - 1 = (v - (j + 1) - 1) + 1 := by omega
          rw [harith, iterOp]
          exact h3
      | none =>
          rw [hrec] at h
          by_cases hk : k = ops.enc c
          · rw [if_pos hk] at h
            obtain rfl : j + 1 = v := by simpa using h
            exact ⟨by omega, by omega, by simpa [iterOp] using hk⟩
          · rw [if_neg hk] at h
            exact absurd h (by simp)

theorem lastHit_of_hit {El K : Type} [DecidableEq K] (ops : GroupOps El K)
    (base : El) (k : K) :
    ∀ (fuel d j : Nat) (c : El), d < fuel → k = ops.enc (iterOp ops base d c) →
      ∃ v, lastHit ops base k fuel j c = some v ∧ j + d + 1 ≤ v := by
  intro fuel
  induction fuel with
  | zero => intro d j c hd _; omega
  | succ f ih =>
      intro d j c hd hk
      cases d with
      | zero =>
          cases hrec : lastHit ops base k f (j + 1) (ops.add c base) with
          | some w =>
              refine ⟨w, by rw [lastHit, hrec], ?_⟩
              have := (lastHit_bounds ops base k f (j + 1) (ops.add c base) w hrec).1
              omega
          | none =>
              refine ⟨j + 1, ?_, by omega⟩
              rw [lastHit, hrec, if_pos (by simpa [iterOp] using hk)]
      | succ d' =>
          have hk' : k = ops.enc (iterOp ops base d' (ops.add c base)) := by
            rw [iterOp] at hk; exact hk
          obtain ⟨v, hv, hle⟩ := ih d' (j + 1) (ops.add c base) (by omega) hk'
          exact ⟨v, by rw [lastHit, hv], by omega⟩

/-- Lookup characterization of the table built by `baby_steps` on top of an
empty table: a stored value is a baby index in `[1, m]` whose walk element
encodes to the key. -/
theorem table_values {El K : Type} [DecidableEq K] (ops : GroupOps El K)
    (base : El) (m : Nat) (k : K) (v : Nat)
    (h : babyStepsAux ops base m 0 base (fun _ => none) k = some v) :
    1 ≤ v ∧ v ≤ m ∧ k = ops.enc (iterOp ops base (v - 1) base) := by
  rw [babyStepsAux_eq_lastHit] at h
  cases hlh : lastHit ops base k m 0 base with
  | none => rw [hlh] at h; exact absurd h (by simp)
  | some w =>
      rw [hlh] at h
      have hw : w = v := by simpa using h
      rw [hw] at hlh
      obtain ⟨h1, h2, h3⟩ := lastHit_bounds ops base k m 0 base v hlh
      exact ⟨h1, by omega, by simpa using h3⟩

/-- Existence (with the retained index at least the inserting index) of a
table entry for every baby step performed. -/
theorem table_hit {El K : Type} [DecidableEq K] (ops : GroupOps El K)
    (base : El) (m : Nat) (j : Nat) (hj : 1 ≤ j) (hjm : j ≤ m) :
    ∃ v, babyStepsAux ops base m 0 base (fun _ => none)
        (ops.enc (iterOp ops base (j - 1) base)) = some v ∧ j ≤ v := by
  obtain ⟨v, hv, hle⟩ :=
    lastHit_of_hit ops base (ops.enc (iterOp ops base (j - 1) base)) m (j - 1) 0 base
      (by omega) rfl
  refine ⟨v, ?_, by omega⟩
  rw [babyStepsAux_eq_lastHit, hv]

/-! ### Properties of the giant-step scan loop -/

theorem giantScanAux_none {El K : Type} [DecidableEq K] (ops : GroupOps El K)
    (s : GrumpkinBabyGiant K) (jump : El) :
    ∀ (fuel g : Nat) (c : El),
      (∀ i, i < fuel → in_baby_steps ops s (iterOp ops jump i c) = none) →
      giantScanAux ops s jump fuel g c = none := by
  intro fuel
  induction fuel with
  | zero => intro g c _; rfl
  | succ f ih =>
      intro g c h
      have h0 : in_baby_steps ops s c = none := h 0 (by omega)
      rw [giantScanAux, h0]
      exact ih (g + 1) (ops.add c jump) fun i hi => h (i + 1) (by omega)

theorem giantScanAux_first_hit {El K : Type} [DecidableEq K] (ops : GroupOps El K)
    (s : GrumpkinBabyGiant K) (jump : El) :
    ∀ (gstar fuel g : Nat) (c : El) (baby : Nat), gstar < fuel →
      (∀ i, i < gstar → in_baby_steps ops s (iterOp ops jump i c) = none) →
      in_baby_steps ops s (iterOp ops jump gstar c) = some baby →
      giantScanAux ops s jump fuel g c = some (process_result s baby (g + gstar)) := by
  intro gstar
  induction gstar with
  | zero =>
      intro fuel g c baby hlt _ hhit
      obtain ⟨f, rfl⟩ : ∃ f, fuel = f + 1 := ⟨fuel - 1, by omega⟩
      rw [giantScanAux]
      rw [iterOp] at hhit
      rw [hhit]
      simp
  | succ gs ih =>
      intro fuel g c baby hlt hnone hhit
      obtain ⟨f, rfl⟩ : ∃ f, fuel = f + 1 := ⟨fuel - 1, by omega⟩
      have h0 : in_baby_steps ops s c = none := by
        have := hnone 0 (by omega)
        rwa [iterOp] at this
      rw [giantScanAux, h0]
      have hres := ih f (g + 1) (ops.add c jump) baby (by omega)
        (fun i hi => by
          have := hnone (i + 1) (by omega)
          rwa [iterOp] at this)
        (by rw [iterOp] at hhit; exact hhit)
      rw [hres]
      have : g + 1 + gs = g + (gs + 1) := by omega
      rw [this]

theorem giantScanAux_some {El K : Type} [DecidableEq K] (ops : GroupOps El K)
    (s : GrumpkinBabyGiant K) (jump : El) :
    ∀ (fuel g : Nat) (c : El) (r : Nat),
      giantScanAux ops s jump fuel g c = some r →
      ∃ i baby, i < fuel ∧ in_baby_steps ops s (iterOp ops jump i c) = some baby ∧
        r = process_result s baby (g + i) := by
  intro fuel
  induction fuel with
  | zero => intro g c r h; exact absurd h (by simp [giantScanAux])
  | succ f ih =>
      intro g c r h
      rw [giantScanAux] at h
      cases hl : in_baby_steps ops s c with
      | some baby =>
          rw [hl] at h
          refine ⟨0, baby, by omega, by rw [iterOp]; exact hl, ?_⟩
          simpa using h.symm
      | none =>
          rw [hl] at h
          obtain ⟨i, baby, hi, hhit, hr⟩ := ih (g + 1) (ops.add c jump) r h
          refine ⟨i + 1, baby, by omega, by rw [iterOp]; exact hhit, ?_⟩
          rw [hr]; congr 1; omega

/-! ### The cyclic-group model: walk elements, encodings, table lookups -/

theorem iterOp_zmod (o : Nat) {K : Type} (e : ZMod o → K) (step : ZMod o) :
    ∀ (n : Nat) (c : ZMod o), iterOp (zmodOps o e) step n c = c + n • step := by
  intro n
  induction n with
  | zero => intro c; simp [iterOp]
  | succ k ih =>
      intro c
      rw [iterOp]
      show iterOp (zmodOps o e) step k (c + step) = _
      rw [ih (c + step), succ_nsmul]
      abel

theorem walk_enc (o : Nat) {K : Type} (e : ZMod o → K) (base : ZMod o)
    (j : Nat) (hj : 1 ≤ j) :
    iterOp (zmodOps o e) base (j - 1) base = j • base := by
  rw [iterOp_zmod, add_comm, ← succ_nsmul]
  congr 1
  omega

theorem scan_element (o : Nat) {K : Type} (e : ZMod o → K) (base : ZMod o)
    (m x i : Nat) (h : i * m ≤ x) :
    iterOp (zmodOps o e) (-(m • base)) i (x • base) = (x - i * m) • base := by
  rw [iterOp_zmod, smul_neg, ← mul_smul]
  have hsum : (x - i * m) • base + (i * m) • base = x • base := by
    rw [← add_nsmul, Nat.sub_add_cancel h]
  rw [← hsum]
  abel

theorem zmod_table_spec (o : Nat) {K : Type} [DecidableEq K] (e : ZMod o → K)
    (base : ZMod o) (m : Nat) (k : K) (v : Nat)
    (h : babyStepsAux (zmodOps o e) base m 0 base (fun _ => none) k = some v) :
    1 ≤ v ∧ v ≤ m ∧ k = e (v • base) := by
  obtain ⟨h1, h2, h3⟩ := table_values _ base m k v h
  rw [walk_enc o e base v h1] at h3
  exact ⟨h1, h2, h3⟩

theorem nsmul_base_mod (o : Nat) (base : ZMod o) (n : Nat)
    (hbase : addOrderOf base = n) (x : Nat) : x • base = (x % n) • base := by
  rw [nsmul_eq_nsmul_iff_modEq, hbase]
  exact (Nat.mod_modEq x n).symm

/-- If `y` is congruent, modulo the order of `base`, to no baby index and to
no negated baby index, the table probe at `y • base` misses. -/
theorem zmod_no_hit (o : Nat) {K : Type} [DecidableEq K] (e : ZMod o → K)
    (he : ∀ a b : ZMod o, e a = e b → a = b ∨ a = -b)
    (base : ZMod o) (hbase : addOrderOf base = o) (m y : Nat)
    (hcond : ∀ j, 1 ≤ j → j ≤ m → ¬ (y ≡ j [MOD o]) ∧ ¬ (o ∣ y + j)) :
    babyStepsAux (zmodOps o e) base m 0 base (fun _ => none) (e (y • base)) = none := by
  cases h : babyStepsAux (zmodOps o e) base m 0 base (fun _ => none) (e (y • base)) with
  | none => rfl
  | some v =>
      obtain ⟨h1, h2, h3⟩ := zmod_table_spec o e base m _ v h
      rcases he _ _ h3 with heq | hneg
      · have : y ≡ v [MOD o] := by
          rw [← hbase]
          exact nsmul_eq_nsmul_iff_modEq.mp heq
        exact absurd this (hcond v h1 h2).1
      · have hzero : (y + v) • base = 0 := by
          rw [add_nsmul]
          rw [eq_neg_iff_add_eq_zero] at hneg
          exact hneg
        have : o ∣ y + v := by
          rw [← hbase]
          exact addOrderOf_dvd_iff_nsmul_eq_zero.mpr hzero
        exact absurd this (hcond v h1 h2).2

/-- The table probe at a genuine baby element `b0 • base` (for `b0` in
`[1, m]`) returns exactly `b0`, provided the order of `base` exceeds `2m`
(so no two baby indices share an encoding). -/
theorem zmod_hit (o : Nat) {K : Type} [DecidableEq K] (e : ZMod o → K)
    (he : ∀ a b : ZMod o, e a = e b → a = b ∨ a = -b)
    (base : ZMod o) (hbase : addOrderOf base = o) (m b0 : Nat)
    (hb1 : 1 ≤ b0) (hb2 : b0 ≤ m) (hom : m + m < o) :
    babyStepsAux (zmodOps o e) base m 0 base (fun _ => none) (e (b0 • base)) =
      some b0 := by
  obtain ⟨v, hv, hle⟩ := table_hit (zmodOps o e) base m b0 hb1 hb2
  have hkey : (zmodOps o e).enc (iterOp (zmodOps o e) base (b0 - 1) base) =
      e (b0 • base) := by
    rw [walk_enc o e base b0 hb1]; rfl
  rw [hkey] at hv
  obtain ⟨h1, h2, h3⟩ := zmod_table_spec o e base m _ v hv
  rcases he _ _ h3 with heq | hneg
  · have hmod : b0 ≡ v [MOD o] := by
      rw [← hbase]
      exact nsmul_eq_nsmul_iff_modEq.mp heq
    have : b0 % o = v % o := hmod
    rw [Nat.mod_eq_of_lt (by omega), Nat.mod_eq_of_lt (by omega)] at this
    rw [hv, this]
  · have hzero : (b0 + v) • base = 0 := by
      rw [add_nsmul]
      rw [eq_neg_iff_add_eq_zero] at hneg
      exact hneg
    have hdvd : o ∣ b0 + v := by
      rw [← hbase]
      exact addOrderOf_dvd_iff_nsmul_eq_zero.mpr hzero
    have := Nat.le_of_dvd (by omega) hdvd
    omega

/-- The concrete encoding `encMin` conflates exactly an element and its
negation, as the affine x-coordinate does. -/
theorem encMin_conflate (o : Nat) [NeZero o] (a b : ZMod o)
    (h : encMin o a = encMin o b) : a = b ∨ a = -b := by
  unfold encMin at h
  rcases le_total a.val (-a).val with ha | ha <;>
    rcases le_total b.val (-b).val with hb | hb
  · rw [min_eq_left ha, min_eq_left hb] at h
    exact Or.inl (ZMod.val_injective o h)
  · rw [min_eq_left ha, min_eq_right hb] at h
    exact Or.inr (ZMod.val_injective o h)
  · rw [min_eq_right ha, min_eq_left hb] at h
    exact Or.inr (neg_eq_iff_eq_neg.mp (ZMod.val_injective o h))
  · rw [min_eq_right ha, min_eq_right hb] at h
    exact Or.inl (neg_injective (ZMod.val_injective o h))

/-- Completeness of the scan, up to the `u64` wrap of the result
composition: when the order of `base` exceeds `m² + m` (which rules out
both construction collisions and the x-coordinate false positives), `run`
on a fresh solver recovers any `x` in `[1, m²]` modulo `2^64`. -/
theorem run_complete_mod (o : Nat) {K : Type} [DecidableEq K] (e : ZMod o → K)
    (he : ∀ a b : ZMod o, e a = e b → a = b ∨ a = -b)
    (base : ZMod o) (hbase : addOrderOf base = o) (m x : Nat)
    (hm : 1 ≤ m) (hx1 : 1 ≤ x) (hx2 : x ≤ m * m) (ho : m * m + m < o) :
    (run (zmodOps o e) (GrumpkinBabyGiant.new K m) base (x • base)).1 =
      some (x % 2 ^ 64) := by
  have hmm : m ≤ m * m := by
    calc m = 1 * m := (one_mul m).symm
      _ ≤ m * m := Nat.mul_le_mul_right m hm
  have hdm := Nat.div_add_mod (x - 1) m
  have hmodlt : (x - 1) % m < m := Nat.mod_lt (x - 1) (by omega)
  have hcomm : (x - 1) / m * m = m * ((x - 1) / m) := Nat.mul_comm _ _
  have hx : (x - 1) / m * m + ((x - 1) % m + 1) = x := by omega
  have hg0m : (x - 1) / m < m := by
    by_contra hge
    have : m * m ≤ m * ((x - 1) / m) :=
      Nat.mul_le_mul_left m (by omega)
    omega
  have hnone : ∀ i, i < (x - 1) / m →
      in_baby_steps (zmodOps o e)
        (baby_steps (zmodOps o e) (GrumpkinBabyGiant.new K m) base)
        (iterOp (zmodOps o e) (-(m • base)) i (x • base)) = none := by
    intro i hi
    have him : (i + 1) * m ≤ (x - 1) / m * m := Nat.mul_le_mul_right m (by omega)
    have him' : i * m + m = (i + 1) * m := by ring
    show babyStepsAux (zmodOps o e) base m 0 base (fun _ => none)
        (e (iterOp (zmodOps o e) (-(m • base)) i (x • base))) = none
    rw [scan_element o e base m x i (by omega)]
    apply zmod_no_hit o e he base hbase m (x - i * m)
    intro j hj1 hj2
    constructor
    · intro hmod
      have hyv : (x - i * m) % o = j % o := hmod
      rw [Nat.mod_eq_of_lt (by omega), Nat.mod_eq_of_lt (by omega)] at hyv
      omega
    · intro hdvd
      have := Nat.le_of_dvd (by omega) hdvd
      omega
  have hhit :
      in_baby_steps (zmodOps o e)
        (baby_steps (zmodOps o e) (GrumpkinBabyGiant.new K m) base)
        (iterOp (zmodOps o e) (-(m • base)) ((x - 1) / m) (x • base)) =
        some ((x - 1) % m + 1) := by
    show babyStepsAux (zmodOps o e) base m 0 base (fun _ => none)
        (e (iterOp (zmodOps o e) (-(m • base)) ((x - 1) / m) (x • base))) =
        some ((x - 1) % m + 1)
    rw [scan_element o e base m x ((x - 1) / m) (by omega)]
    have hsub : x - (x - 1) / m * m = (x - 1) % m + 1 := by omega
    rw [hsub]
    exact zmod_hit o e he base hbase m ((x - 1) % m + 1) (by omega) (by omega)
      (by omega)
  have hmain := giantScanAux_first_hit (zmodOps o e)
    (baby_steps (zmodOps o e) (GrumpkinBabyGiant.new K m) base) (-(m • base))
    ((x - 1) / m) m 0 (x • base) ((x - 1) % m + 1) hg0m hnone hhit
  calc (run (zmodOps o e) (GrumpkinBabyGiant.new K m) base (x • base)).1
      = giantScanAux (zmodOps o e)
          (baby_steps (zmodOps o e) (GrumpkinBabyGiant.new K m) base)
          (-(m • base)) m 0 (x • base) := rfl
    _ = some (process_result
          (baby_steps (zmodOps o e) (GrumpkinBabyGiant.new K m) base)
          ((x - 1) % m + 1) (0 + (x - 1) / m)) := hmain
    _ = some (x % 2 ^ 64) := by
        show some (((0 + (x - 1) / m) * m + ((x - 1) % m + 1)) % 2 ^ 64) = _
        rw [Nat.zero_add, hx]

/-- Bounded failure of the scan: when the residue of `x` modulo the order
of `base` lies strictly between `m²` and `o - m`, no giant step can hit the
table (neither genuinely nor through the negation conflation) and `run`
on a fresh solver reports no result. -/
theorem run_none_mod (o : Nat) {K : Type} [DecidableEq K] (e : ZMod o → K)
    (he : ∀ a b : ZMod o, e a = e b → a = b ∨ a = -b)
    (base : ZMod o) (hbase : addOrderOf base = o) (m x : Nat)
    (hlo : m * m < x % o) (hhi : x % o < o - m) :
    (run (zmodOps o e) (GrumpkinBabyGiant.new K m) base (x • base)).1 = none := by
  have hmm : m ≤ m * m := by
    rcases Nat.eq_zero_or_pos m with hm0 | hm1
    · omega
    · calc m = 1 * m := (one_mul m).symm
        _ ≤ m * m := Nat.mul_le_mul_right m hm1
  have hmo : x % o < o := by
    rcases Nat.eq_zero_or_pos o with ho0 | ho1
    · subst ho0; omega
    · exact Nat.mod_lt x ho1
  have key : ∀ y, m * m < y → y < o - m →
      giantScanAux (zmodOps o e)
        (baby_steps (zmodOps o e) (GrumpkinBabyGiant.new K m) base)
        (-(m • base)) m 0 (y • base) = none := by
    intro y hylo hyhi
    apply giantScanAux_none
    intro i hi
    have him : (i + 1) * m ≤ m * m := Nat.mul_le_mul_right m (by omega)
    have him' : i * m + m = (i + 1) * m := by ring
    show babyStepsAux (zmodOps o e) base m 0 base (fun _ => none)
        (e (iterOp (zmodOps o e) (-(m • base)) i (y • base))) = none
    rw [scan_element o e base m y i (by omega)]
    apply zmod_no_hit o e he base hbase m (y - i * m)
    intro j hj1 hj2
    constructor
    · intro hmod
      have hyv : (y - i * m) % o = j % o := hmod
      rw [Nat.mod_eq_of_lt (by omega), Nat.mod_eq_of_lt (by omega)] at hyv
      omega
    · intro hdvd
      have := Nat.le_of_dvd (by omega) hdvd
      omega
  calc (run (zmodOps o e) (GrumpkinBabyGiant.new K m) base (x • base)).1
      = giantScanAux (zmodOps o e)
          (baby_steps (zmodOps o e) (GrumpkinBabyGiant.new K m) base)
          (-(m • base)) m 0 (x • base) := rfl
    _ = none := by
        rw [nsmul_base_mod o base o hbase x]
        exact key (x % o) hlo hhi

/-! ### State-congruence of the two loops -/

theorem babyStepsAux_congr {El K : Type} [DecidableEq K] (ops : GroupOps El K)
    (base : El) :
    ∀ (fuel j : Nat) (c : El) (t t' : K → Option Nat),
      (∀ k, t k = t' k) →
      ∀ k, babyStepsAux ops base fuel j c t k = babyStepsAux ops base fuel j c t' k := by
  intro fuel
  induction fuel with
  | zero => intro j c t t' h k; exact h k
  | succ f ih =>
      intro j c t t' h k
      rw [babyStepsAux, babyStepsAux]
      refine ih (j + 1) (ops.add c base) _ _ (fun q => ?_) k
      unfold insertT
      by_cases hq : q = ops.enc c <;> simp [hq, h q]

theorem giantScanAux_congr {El K : Type} [DecidableEq K] (ops : GroupOps El K)
    (s s' : GrumpkinBabyGiant K) (jump : El)
    (h1 : s.steps_count = s'.steps_count)
    (h2 : ∀ k, s.baby_steps k = s'.baby_steps k) :
    ∀ (fuel g : Nat) (c : El),
      giantScanAux ops s jump fuel g c = giantScanAux ops s' jump fuel g c := by
  intro fuel
  induction fuel with
  | zero => intro g c; rfl
  | succ f ih =>
      intro g c
      rw [giantScanAux, giantScanAux]
      have hl : in_baby_steps ops s c = in_baby_steps ops s' c := h2 _
      rw [← hl]
      cases hb : in_baby_steps ops s c with
      | some baby =>
          show some (process_result s baby g) = some (process_result s' baby g)
          unfold process_result
          rw [h1]
      | none => exact ih (g + 1) (ops.add c jump)

/-! ### Correctness of square-and-multiply below the overflow threshold -/

theorem mul_lt_two_pow_128 {a b m : Nat} (hm : m ≤ 2 ^ 64) (ha : a < m)
    (hb : b < m) : a * b < 2 ^ 128 := by
  have h1 : a ≤ 2 ^ 64 - 1 := by omega
  have h2 : b ≤ 2 ^ 64 - 1 := by omega
  have h3 : a * b ≤ (2 ^ 64 - 1) * (2 ^ 64 - 1) := Nat.mul_le_mul h1 h2
  have h4 : (2 ^ 64 - 1) * (2 ^ 64 - 1) < 2 ^ 128 := by norm_num
  omega

theorem modExpLoop_step_identity (base result m e : Nat) :
    (if e % 2 = 1 then result * base % m else result) *
        (base * base % m) ^ (e / 2) % m = result * base ^ e % m := by
  obtain he2 | he2 : e % 2 = 0 ∨ e % 2 = 1 := by omega
  · rw [he2, if_neg (by omega)]
    have hee : 2 * (e / 2) = e := by omega
    have hpow : (base * base) ^ (e / 2) = base ^ e := by
      rw [← pow_two, ← pow_mul, hee]
    calc result * (base * base % m) ^ (e / 2) % m
        = result * (base * base) ^ (e / 2) % m := by
          simp [Nat.mul_mod, Nat.pow_mod]
      _ = result * base ^ e % m := by rw [hpow]
  · rw [he2, if_pos rfl]
    have hee : 2 * (e / 2) + 1 = e := by omega
    have hpow : base * (base * base) ^ (e / 2) = base ^ e := by
      rw [← pow_two, ← pow_mul, ← pow_succ', hee]
    calc result * base % m * (base * base % m) ^ (e / 2) % m
        = result * base * (base * base) ^ (e / 2) % m := by
          simp [Nat.mul_mod, Nat.pow_mod]
      _ = result * base ^ e % m := by rw [mul_assoc, hpow]

theorem modExpLoop_correct :
    ∀ (e base result m : Nat), 2 ≤ m → m ≤ 2 ^ 64 → base < m → result < m →
      modExpLoop base e result m = result * base ^ e % m := by
  intro e
  induction e using Nat.strong_induction_on with
  | _ e ih =>
      intro base result m hm hm64 hb hr
      rw [modExpLoop]
      by_cases he0 : e = 0
      · rw [if_pos he0, he0, pow_zero, mul_one, Nat.mod_eq_of_lt hr]
      · rw [if_neg he0]
        rw [Nat.mod_eq_of_lt (mul_lt_two_pow_128 hm64 hb hb)]
        have hbranch :
            (if e % 2 = 1 then result * base % 2 ^ 128 % m else result) =
              (if e % 2 = 1 then result * base % m else result) := by
          by_cases h2 : e % 2 = 1
          · rw [if_pos h2, if_pos h2,
              Nat.mod_eq_of_lt (mul_lt_two_pow_128 hm64 hr hb)]
          · rw [if_neg h2, if_neg h2]
        rw [hbranch]
        have hb' : base * base % m < m := Nat.mod_lt _ (by omega)
        have hr' : (if e % 2 = 1 then result * base % m else result) < m := by
          by_cases h2 : e % 2 = 1
          · rw [if_pos h2]; exact Nat.mod_lt _ (by omega)
          · rw [if_neg h2]; exact hr
        rw [ih (e / 2) (Nat.div_lt_self (Nat.pos_of_ne_zero he0) one_lt_two)
          (base * base % m) _ m hm hm64 hb' hr']
        exact modExpLoop_step_identity base result m e

/-! ### Claim theorems -/

/-- C1, counterexample: with `base` of order `7` (no baby-step table
collision occurs for `m = 3`: the three baby encodings are pairwise
distinct), `x = 6 ∈ [1, 3²]`, the run returns `some 1`, not `some 6` — the
scan's first probe hits the table through the x-coordinate conflation
(`6·base = -(1·base)` shares its encoding with `1·base`). -/
theorem c1_counterexample :
    addOrderOf (1 : ZMod 7) = 7 ∧
      (∀ j j' : Fin 3, j < j' →
        encMin 7 ((j.val + 1) • (1 : ZMod 7)) ≠ encMin 7 ((j'.val + 1) • (1 : ZMod 7))) ∧
      (run (zmodOps 7 (encMin 7)) (GrumpkinBabyGiant.new Nat 3) 1
          ((6 : Nat) • (1 : ZMod 7))).1 = some 1 ∧
      (1 : Nat) ≠ 6 :=
  ⟨ZMod.addOrderOf_one 7, by decide, by decide, by decide⟩

/-- C1, amended: for every base of order `o`, every `m ≥ 1` and every
`x ∈ [1, m²]`, `run(base, x·base)` on a fresh solver returns `some x`,
provided additionally that `o > m² + m` (which rules out both table
collisions and the x-coordinate false positives of the scan) and
`x < 2^64` (so the `u64` result composition does not wrap). -/
theorem c1_amended (o : Nat) {K : Type} [DecidableEq K] (e : ZMod o → K)
    (he : ∀ a b : ZMod o, e a = e b → a = b ∨ a = -b)
    (base : ZMod o) (hbase : addOrderOf base = o) (m x : Nat)
    (hm : 1 ≤ m) (hx1 : 1 ≤ x) (hx2 : x ≤ m * m) (ho : m * m + m < o)
    (hx64 : x < 2 ^ 64) :
    (run (zmodOps o e) (GrumpkinBabyGiant.new K m) base (x • base)).1 = some x := by
  have h := run_complete_mod o e he base hbase m x hm hx1 hx2 ho
  rwa [Nat.mod_eq_of_lt hx64] at h

/-- Witness for C1 at `o = 13`, `m = 3`, `x = 5`. -/
theorem c1_witness :
    (run (zmodOps 13 (encMin 13)) (GrumpkinBabyGiant.new Nat 3) 1
        ((5 : Nat) • (1 : ZMod 13))).1 = some 5 :=
  c1_amended 13 (encMin 13) (by decide) 1 (ZMod.addOrderOf_one 13) 3 5
    (by norm_num) (by norm_num) (by norm_num) (by norm_num) (by norm_num)

/-- C2, counterexample: with `base` of order `7`, `m = 2` and `x = 5 > m²`,
the run returns `some 2` rather than no result: `5·base = -(2·base)`
shares the encoding of the baby step `2·base`. -/
theorem c2_counterexample :
    2 * 2 < 5 ∧
      (run (zmodOps 7 (encMin 7)) (GrumpkinBabyGiant.new Nat 2) 1
          ((5 : Nat) • (1 : ZMod 7))).1 = some 2 ∧
      (run (zmodOps 7 (encMin 7)) (GrumpkinBabyGiant.new Nat 2) 1
          ((5 : Nat) • (1 : ZMod 7))).1 ≠ none :=
  ⟨by decide, by decide, by decide⟩

/-- C2, amended: `run(base, x·base)` on a fresh solver returns no result
for every `x` whose residue modulo the order `o` of `base` lies strictly
between `m²` and `o - m` (in particular such `x` exceed `m²`; the original
unconditional claim fails because `x·base` depends only on `x mod o` and
because the encoding conflates a point with its negation). -/
theorem c2_amended (o : Nat) {K : Type} [DecidableEq K] (e : ZMod o → K)
    (he : ∀ a b : ZMod o, e a = e b → a = b ∨ a = -b)
    (base : ZMod o) (hbase : addOrderOf base = o) (m x : Nat)
    (hlo : m * m < x % o) (hhi : x % o < o - m) :
    (run (zmodOps o e) (GrumpkinBabyGiant.new K m) base (x • base)).1 = none :=
  run_none_mod o e he base hbase m x hlo hhi

/-- Witness for C2 at `o = 13`, `m = 2`, `x = 7`. -/
theorem c2_witness :
    (run (zmodOps 13 (encMin 13)) (GrumpkinBabyGiant.new Nat 2) 1
        ((7 : Nat) • (1 : ZMod 13))).1 = none :=
  c2_amended 13 (encMin 13) (by decide) 1 (ZMod.addOrderOf_one 13) 2 7
    (by norm_num) (by norm_num)

/-- C3: if `base` has order `k < m`, the baby-step table built by a fresh
solver holds at most `k` distinct keys, and any index `j ∈ [1, m]` whose
baby element encodes to a stored key is at most the retained value — the
retained index is the largest producer of its key. -/
theorem c3_collision_policy (o k m : Nat) {K : Type} [DecidableEq K]
    (e : ZMod o → K) (base : ZMod o) (hk1 : 1 ≤ k) (hk : addOrderOf base = k)
    (hkm : k < m) :
    (∃ S : Finset K, S.card ≤ k ∧ ∀ key,
      (babyStepsAux (zmodOps o e) base m 0 base (fun _ => none) key).isSome = true →
        key ∈ S) ∧
    (∀ key v j,
      babyStepsAux (zmodOps o e) base m 0 base (fun _ => none) key = some v →
      1 ≤ j → j ≤ m → key = e (j • base) → j ≤ v) := by
  constructor
  · refine ⟨(Finset.range k).image (fun r => e ((r : Nat) • base)), ?_, ?_⟩
    · exact le_trans (Finset.card_image_le) (by simp)
    · intro key hsome
      obtain ⟨v, hv⟩ := Option.isSome_iff_exists.mp hsome
      obtain ⟨h1, h2, h3⟩ := zmod_table_spec o e base m key v hv
      have hvk : v • base = (v % k) • base := nsmul_base_mod o base k hk v
      refine Finset.mem_image.mpr ⟨v % k, Finset.mem_range.mpr ?_, ?_⟩
      · exact Nat.mod_lt v (by omega)
      · rw [← hvk, ← h3]
  · intro key v j hv hj1 hjm hkey
    have hkey' : key = (zmodOps o e).enc (iterOp (zmodOps o e) base (j - 1) base) := by
      rw [walk_enc o e base j hj1]
      exact hkey
    obtain ⟨w, hw, hle⟩ :=
      lastHit_of_hit (zmodOps o e) base key m (j - 1) 0 base (by omega) hkey'
    rw [babyStepsAux_eq_lastHit, hw] at hv
    have : w = v := by simpa using hv
    omega

/-- Witness for C3 at `o = k = 3`, `m = 5`. -/
theorem c3_witness :
    (∃ S : Finset Nat, S.card ≤ 3 ∧ ∀ key,
      (babyStepsAux (zmodOps 3 (encMin 3)) 1 5 0 1 (fun _ => none) key).isSome = true →
        key ∈ S) ∧
    (∀ key v j,
      babyStepsAux (zmodOps 3 (encMin 3)) 1 5 0 1 (fun _ => none) key = some v →
      1 ≤ j → j ≤ 5 → key = encMin 3 ((j : Nat) • (1 : ZMod 3)) → j ≤ v) :=
  c3_collision_policy 3 3 5 (encMin 3) 1 (by norm_num) (ZMod.addOrderOf_one 3)
    (by norm_num)

/-- C4: building the baby steps on a fresh solver performs one insertion
per index `j = 1..m` — the key of the `j`-th walk element is present, with
retained value at least `j` and at most `m` — every stored value `v` lies
in `[1, m]` and keys the `v`-th walk element, and the value `0` is never
stored. -/
theorem c4_baby_steps_entries {El K : Type} [DecidableEq K] (ops : GroupOps El K)
    (base : El) (m j : Nat) (hj : 1 ≤ j) (hjm : j ≤ m) :
    (∃ v, babyStepsAux ops base m 0 base (fun _ => none)
        (ops.enc (iterOp ops base (j - 1) base)) = some v ∧ j ≤ v ∧ v ≤ m) ∧
    (∀ k v, babyStepsAux ops base m 0 base (fun _ => none) k = some v →
      1 ≤ v ∧ v ≤ m ∧ k = ops.enc (iterOp ops base (v - 1) base)) ∧
    (∀ k, babyStepsAux ops base m 0 base (fun _ => none) k ≠ some 0) := by
  refine ⟨?_, fun k v hv => table_values ops base m k v hv, fun k h0 => ?_⟩
  · obtain ⟨v, hv, hle⟩ := table_hit ops base m j hj hjm
    exact ⟨v, hv, hle, (table_values ops base m _ v hv).2.1⟩
  · have := (table_values ops base m k 0 h0).1
    omega

/-- Witness for C4 at the cyclic model with `o = 5`, `m = 3`, `j = 2`. -/
theorem c4_witness :
    (∃ v, babyStepsAux (zmodOps 5 (encMin 5)) 1 3 0 1 (fun _ => none)
        ((zmodOps 5 (encMin 5)).enc (iterOp (zmodOps 5 (encMin 5)) 1 (2 - 1) 1)) =
          some v ∧ 2 ≤ v ∧ v ≤ 3) ∧
    (∀ k v, babyStepsAux (zmodOps 5 (encMin 5)) 1 3 0 1 (fun _ => none) k = some v →
      1 ≤ v ∧ v ≤ 3 ∧ k = (zmodOps 5 (encMin 5)).enc
        (iterOp (zmodOps 5 (encMin 5)) 1 (v - 1) 1)) ∧
    (∀ k, babyStepsAux (zmodOps 5 (encMin 5)) 1 3 0 1 (fun _ => none) k ≠ some 0) :=
  c4_baby_steps_entries (zmodOps 5 (encMin 5)) 1 3 2 (by norm_num) (by norm_num)

/-- C5, counterexample: `baby_steps` never clears the solver's table, so
after a second `run` with a different base the table still holds a stale
entry (key `1`, from the first base), which the fresh table for the second
base does not contain. -/
theorem c5_counterexample :
    ((run (zmodOps 7 (encMin 7))
        ((run (zmodOps 7 (encMin 7)) (GrumpkinBabyGiant.new Nat 1) 1 0).2)
        2 0).2).baby_steps 1 = some 1 ∧
    ((run (zmodOps 7 (encMin 7)) (GrumpkinBabyGiant.new Nat 1) 2 0).2).baby_steps 1 =
      none :=
  ⟨by decide, by decide⟩

/-- C5, amended: only on a freshly constructed solver (empty table) does
`run` leave exactly the entries produced from that call's base: every
baby index's key is present and every stored entry comes from this base's
walk. In general `run` does not clear the table, and entries from earlier
runs with different bases persist unless overwritten. -/
theorem c5_amended {El K : Type} [DecidableEq K] (ops : GroupOps El K)
    (base target : El) (m j : Nat) (hj : 1 ≤ j) (hjm : j ≤ m) :
    (∃ v, (run ops (GrumpkinBabyGiant.new K m) base target).2.baby_steps
        (ops.enc (iterOp ops base (j - 1) base)) = some v ∧ 1 ≤ v ∧ v ≤ m) ∧
    (∀ k v, (run ops (GrumpkinBabyGiant.new K m) base target).2.baby_steps k =
        some v → 1 ≤ v ∧ v ≤ m ∧ k = ops.enc (iterOp ops base (v - 1) base)) := by
  constructor
  · obtain ⟨v, hv, hle⟩ := table_hit ops base m j hj hjm
    exact ⟨v, hv, (table_values ops base m _ v hv).1,
      (table_values ops base m _ v hv).2.1⟩
  · intro k v hv
    exact table_values ops base m k v hv

/-- Witness for C5 at the cyclic model with `o = 7`, `m = 2`, `j = 1`. -/
theorem c5_witness :
    (∃ v, (run (zmodOps 7 (encMin 7)) (GrumpkinBabyGiant.new Nat 2) 1 3).2.baby_steps
        ((zmodOps 7 (encMin 7)).enc (iterOp (zmodOps 7 (encMin 7)) 1 (1 - 1) 1)) =
          some v ∧ 1 ≤ v ∧ v ≤ 2) ∧
    (∀ k v, (run (zmodOps 7 (encMin 7)) (GrumpkinBabyGiant.new Nat 2) 1 3).2.baby_steps
        k = some v → 1 ≤ v ∧ v ≤ 2 ∧ k = (zmodOps 7 (encMin 7)).enc
          (iterOp (zmodOps 7 (encMin 7)) 1 (v - 1) 1)) :=
  c5_amended (zmodOps 7 (encMin 7)) 1 3 2 1 (by norm_num) (by norm_num)

/-- C6: in the elliptic-curve adapter the table lookup is keyed by the
affine x-coordinate alone, so a point and its negation (same x, negated y)
always receive the same lookup result. -/
theorem c6_x_key_conflates_negation {F : Type} [Neg F] (t : F → Option Nat)
    (p : Affine F) :
    affine_in_baby_steps t p = t p.x ∧
      affine_in_baby_steps t (Affine.neg p) = affine_in_baby_steps t p :=
  ⟨rfl, rfl⟩

/-- C7, counterexample: `u128` multiplication wraps, so for a modulus above
`2^64` the function is wrong: at base `2^64`, exponent `2`, modulus
`2^127 - 1` it returns `0` while the true power residue is `2`. -/
theorem c7_counterexample :
    modular_exponentiation (2 ^ 64) 2 (2 ^ 127 - 1) = 0 ∧
      (2 ^ 64) ^ 2 % (2 ^ 127 - 1) = 2 := by
  constructor
  · rw [modular_exponentiation, if_neg (by norm_num)]
    rw [modExpLoop]
    norm_num
    rw [modExpLoop]
    norm_num
    rw [modExpLoop]
    norm_num
  · norm_num

/-- C7, amended: for every base and exponent and every modulus between `1`
and `2^64` (so that intermediate products fit in `u128`),
`modular_exponentiation` returns the power residue — in particular `0`
when the modulus is `1`. -/
theorem c7_amended (b e m : Nat) (h1 : 1 ≤ m) (h2 : m ≤ 2 ^ 64) :
    modular_exponentiation b e m = b ^ e % m := by
  by_cases hm1 : m = 1
  · rw [modular_exponentiation, if_pos hm1, hm1, Nat.mod_one]
  · rw [modular_exponentiation, if_neg hm1]
    rw [modExpLoop_correct e (b % m) 1 m (by omega) h2
      (Nat.mod_lt b (by omega)) (by omega)]
    rw [one_mul, ← Nat.pow_mod]

/-- Witness for C7 at `3^5 mod 7`. -/
theorem c7_witness : modular_exponentiation 3 5 7 = 3 ^ 5 % 7 :=
  c7_amended 3 5 7 (by norm_num) (by norm_num)

/-- C8, counterexample: `run` mutates and reuses the solver's table, so two
invocations with identical base (`1`), identical target (`2`) and identical
steps_count (`1`) — one on a fresh solver, one on a solver that previously
ran with base `2` — return different results. -/
theorem c8_counterexample :
    (run (zmodOps 7 (encMin 7)) (GrumpkinBabyGiant.new Nat 1) 1 2).1 = none ∧
    (run (zmodOps 7 (encMin 7))
        ((run (zmodOps 7 (encMin 7)) (GrumpkinBabyGiant.new Nat 1) 2 0).2) 1 2).1 =
      some 1 ∧
    ((run (zmodOps 7 (encMin 7)) (GrumpkinBabyGiant.new Nat 1) 2 0).2).steps_count =
      1 ∧
    (none : Option Nat) ≠ some 1 :=
  ⟨by decide, by decide, by decide, by decide⟩

/-- C8, amended: `run` is deterministic once the solver's full state is
fixed: two invocations with identical base, target, steps_count and
extensionally equal baby-step tables return identical results. -/
theorem c8_amended {El K : Type} [DecidableEq K] (ops : GroupOps El K)
    (s s' : GrumpkinBabyGiant K) (b t : El)
    (h1 : s.steps_count = s'.steps_count)
    (h2 : ∀ k, s.baby_steps k = s'.baby_steps k) :
    (run ops s b t).1 = (run ops s' b t).1 := by
  have htab : ∀ k, (baby_steps ops s b).baby_steps k =
      (baby_steps ops s' b).baby_steps k := by
    intro k
    show babyStepsAux ops b s.steps_count 0 b s.baby_steps k =
      babyStepsAux ops b s'.steps_count 0 b s'.baby_steps k
    rw [← h1]
    exact babyStepsAux_congr ops b s.steps_count 0 b _ _ h2 k
  have hjump : giant_step_jump ops (baby_steps ops s b) b =
      giant_step_jump ops (baby_steps ops s' b) b := by
    show ops.neg (ops.smul s.steps_count b) = ops.neg (ops.smul s'.steps_count b)
    rw [h1]
  calc (run ops s b t).1
      = giantScanAux ops (baby_steps ops s b)
          (giant_step_jump ops (baby_steps ops s b) b) s.steps_count 0 t := rfl
    _ = giantScanAux ops (baby_steps ops s' b)
          (giant_step_jump ops (baby_steps ops s b) b) s.steps_count 0 t :=
        giantScanAux_congr ops (baby_steps ops s b) (baby_steps ops s' b)
          (giant_step_jump ops (baby_steps ops s b) b) h1 htab s.steps_count 0 t
    _ = giantScanAux ops (baby_steps ops s' b)
          (giant_step_jump ops (baby_steps ops s' b) b) s'.steps_count 0 t := by
        rw [hjump, h1]
    _ = (run ops s' b t).1 := rfl

/-- Witness for C8: a fresh solver and a solver with a syntactically
different but extensionally empty table agree. -/
theorem c8_witness :
    (run (zmodOps 7 (encMin 7)) (GrumpkinBabyGiant.new Nat 2) 1 3).1 =
      (run (zmodOps 7 (encMin 7))
        ⟨2, fun k => if 100 < k then none else none⟩ 1 3).1 :=
  c8_amended (zmodOps 7 (encMin 7)) (GrumpkinBabyGiant.new Nat 2)
    ⟨2, fun k => if 100 < k then none else none⟩ 1 3 rfl
    (fun k => by by_cases h : 100 < k <;> simp [h, GrumpkinBabyGiant.new])

/-- C9, counterexample: with the Grumpkin group order and `m = 2^32`,
`x = 2^64 ∈ [1, m²]`, the core `run` returns `some 0` (the `u64` result
composition `(2^32 - 1)·2^32 + 2^32` wraps to `0`), so the boundary
`grumpkin_bsgs` returns the sentinel `0` even though `run` did not return
`None`. -/
theorem c9_counterexample :
    (run (zmodOps grumpkinOrder (encMin grumpkinOrder))
        (GrumpkinBabyGiant.new Nat (2 ^ 32)) 1
        ((2 ^ 64 : Nat) • (1 : ZMod grumpkinOrder))).1 = some 0 ∧
    grumpkin_bsgs (zmodOps grumpkinOrder (encMin grumpkinOrder)) 1
        ((2 ^ 64 : Nat) • (1 : ZMod grumpkinOrder)) (2 ^ 32) = 0 ∧
    (run (zmodOps grumpkinOrder (encMin grumpkinOrder))
        (GrumpkinBabyGiant.new Nat (2 ^ 32)) 1
        ((2 ^ 64 : Nat) • (1 : ZMod grumpkinOrder))).1 ≠ none := by
  haveI : NeZero grumpkinOrder := ⟨by norm_num [grumpkinOrder]⟩
  have h1 := run_complete_mod grumpkinOrder (encMin grumpkinOrder)
    (encMin_conflate grumpkinOrder) 1 (ZMod.addOrderOf_one grumpkinOrder)
    (2 ^ 32) (2 ^ 64) (by norm_num) (by norm_num) (by norm_num)
    (by norm_num [grumpkinOrder])
  rw [Nat.mod_self] at h1
  refine ⟨h1, ?_, by rw [h1]; exact Option.some_ne_none 0⟩
  rw [grumpkin_bsgs, h1]

/-- C9, amended: the boundary entry point returns `0` exactly when the core
`run` returns `None` — provided `m² < 2^64`, which holds for both deployed
sizes (`65536` and `2^20`) and guarantees the composed `u64` result of any
hit is nonzero; without that bound `run` can return `Some 0` and the
sentinel conflates it with "not found". -/
theorem c9_amended {El K : Type} [DecidableEq K] (ops : GroupOps El K)
    (base target : El) (m : Nat) (hm2 : m * m < 2 ^ 64) :
    grumpkin_bsgs ops base target m = 0 ↔
      (run ops (GrumpkinBabyGiant.new K m) base target).1 = none := by
  cases h : (run ops (GrumpkinBabyGiant.new K m) base target).1 with
  | none => simp [grumpkin_bsgs, h]
  | some r =>
      obtain ⟨i, baby, hi, hhit, hr⟩ := giantScanAux_some ops
        (baby_steps ops (GrumpkinBabyGiant.new K m) base)
        (giant_step_jump ops (baby_steps ops (GrumpkinBabyGiant.new K m) base) base)
        m 0 target r h
      have hbaby : 1 ≤ baby ∧ baby ≤ m := by
        have := table_values ops base m _ baby hhit
        exact ⟨this.1, this.2.1⟩
      have hpr : process_result (baby_steps ops (GrumpkinBabyGiant.new K m) base)
          baby (0 + i) = (i * m + baby) % 2 ^ 64 := by
        show ((0 + i) * m + baby) % 2 ^ 64 = _
        rw [Nat.zero_add]
      have him : (i + 1) * m ≤ m * m := Nat.mul_le_mul_right m (by omega)
      have him' : i * m + m = (i + 1) * m := by ring
      have hr0 : r ≠ 0 := by
        rw [hr, hpr, Nat.mod_eq_of_lt (by omega)]
        omega
      rw [grumpkin_bsgs, h]
      constructor
      · intro h0; exact absurd h0 hr0
      · intro hn; exact absurd hn (Option.some_ne_none r)

/-- Witness for C9 at the cyclic model with `o = 7`, `m = 2`. -/
theorem c9_witness :
    grumpkin_bsgs (zmodOps 7 (encMin 7)) 1 3 2 = 0 ↔
      (run (zmodOps 7 (encMin 7)) (GrumpkinBabyGiant.new Nat 2) 1 3).1 = none :=
  c9_amended (zmodOps 7 (encMin 7)) 1 3 2 (by norm_num)

/-- C10: on a solver whose steps_count is `0`, `run` returns no result and
leaves the solver untouched: no table entry is inserted (the insertion loop
never executes) and no giant step is taken (the scan loop never executes),
for every base and target. -/
theorem c10_zero_steps {El K : Type} [DecidableEq K] (ops : GroupOps El K)
    (t : K → Option Nat) (base target : El) :
    run ops ⟨0, t⟩ base target = (none, ⟨0, t⟩) :=
  rfl

end BabyGiant

